import Mathlib

/-!
# Verification of the tesseract geometry kernel

A shallow embedding of the 4D geometry kernel in `src/core/hyper.ts` and of the
per-frame movement step in `src/main.ts`, together with theorems about the
hypercube topology generator, the rotation engine and the projector.

The topology generator only ever compares coordinates for equality, so it is
embedded over `ℚ` (exact arithmetic, decidable equality).  The rotation engine
and projector use `Real.cos`/`Real.sin`, so they are embedded over `ℝ`.
-/

namespace Tesseractia

/-- The `Vec4` tuple type `[number, number, number, number]` of
`src/core/hyper.ts`, for the topology generator (exact coordinates). -/
structure Vec4 where
  x : ℚ
  y : ℚ
  z : ℚ
  w : ℚ
deriving DecidableEq, Repr

/-- Tuple indexing `v[k]` used by the coordinate loop
`for (let k = 0; k < 4; k++)` in `generateTesseractEdges`. -/
def coord (v : Vec4) : Fin 4 → ℚ
  | 0 => v.x
  | 1 => v.y
  | 2 => v.z
  | 3 => v.w

/-- The all-zero vector, used only as the (never hit) default for list
indexing. -/
def vzero : Vec4 := ⟨0, 0, 0, 0⟩

/-- `generateTesseractVertices` from `src/core/hyper.ts`: four nested loops
over `[-s, s]` with `s = size / 2`, `x` outermost and `w` innermost. -/
def generateTesseractVertices (size : ℚ) : List Vec4 :=
  let s := size / 2
  [-s, s].flatMap fun x =>
    [-s, s].flatMap fun y =>
      [-s, s].flatMap fun z =>
        [-s, s].map fun w => ⟨x, y, z, w⟩

/-- The differing-coordinate count computed by the `k` loop in
`generateTesseractEdges` (`if (v1[k] !== v2[k]) diffCount++`). -/
def diffCount (v1 v2 : Vec4) : Nat :=
  (List.finRange 4).countP fun k => decide (coord v1 k ≠ coord v2 k)

/-- `generateTesseractEdges` from `src/core/hyper.ts`: the exhaustive scan over
index pairs `i < j`, keeping a pair iff the two indexed vertices differ in
exactly one coordinate.  `vertices[i]` is modelled by `getD` with a default
that is never reached, both indices being in range. -/
def generateTesseractEdges (vertices : List Vec4) : List (Nat × Nat) :=
  (List.range vertices.length).flatMap fun i =>
    (List.range vertices.length).filterMap fun j =>
      if i < j ∧ diffCount (vertices.getD i vzero) (vertices.getD j vzero) = 1 then
        some (i, j)
      else none

/-- Scaling every coordinate by a constant, the bridge between the vertex list
at an arbitrary `size` and the one at `size = 2`. -/
def scaleVec (c : ℚ) (v : Vec4) : Vec4 := ⟨c * v.x, c * v.y, c * v.z, c * v.w⟩

/-- The vertex list of the unit-coordinate tesseract (`size = 2`, so
`s = 1`), written out literally: `x` outermost, `w` innermost. -/
def baseVerts : List Vec4 :=
  [⟨-1, -1, -1, -1⟩, ⟨-1, -1, -1, 1⟩, ⟨-1, -1, 1, -1⟩, ⟨-1, -1, 1, 1⟩,
   ⟨-1, 1, -1, -1⟩, ⟨-1, 1, -1, 1⟩, ⟨-1, 1, 1, -1⟩, ⟨-1, 1, 1, 1⟩,
   ⟨1, -1, -1, -1⟩, ⟨1, -1, -1, 1⟩, ⟨1, -1, 1, -1⟩, ⟨1, -1, 1, 1⟩,
   ⟨1, 1, -1, -1⟩, ⟨1, 1, -1, 1⟩, ⟨1, 1, 1, -1⟩, ⟨1, 1, 1, 1⟩]

/-- The 32 index pairs produced by `generateTesseractEdges` on any
nondegenerate tesseract vertex list, in emission order. -/
def tesseractEdgeList : List (Nat × Nat) :=
  [(0, 1), (0, 2), (0, 4), (0, 8),
   (1, 3), (1, 5), (1, 9),
   (2, 3), (2, 6), (2, 10),
   (3, 7), (3, 11),
   (4, 5), (4, 6), (4, 12),
   (5, 7), (5, 13),
   (6, 7), (6, 14),
   (7, 15),
   (8, 9), (8, 10), (8, 12),
   (9, 11), (9, 13),
   (10, 11), (10, 14),
   (11, 15),
   (12, 13), (12, 14),
   (13, 15),
   (14, 15)]

lemma generateTesseractVertices_eq_map (size : ℚ) :
    generateTesseractVertices size = baseVerts.map (scaleVec (size / 2)) := by
  norm_num [generateTesseractVertices, baseVerts, scaleVec]

lemma coord_scaleVec (c : ℚ) (v : Vec4) (k : Fin 4) :
    coord (scaleVec c v) k = c * coord v k := by
  fin_cases k <;> rfl

lemma scaleVec_injective {c : ℚ} (hc : c ≠ 0) : Function.Injective (scaleVec c) := by
  rintro ⟨x1, y1, z1, w1⟩ ⟨x2, y2, z2, w2⟩ h
  simp only [scaleVec, Vec4.mk.injEq] at h ⊢
  exact ⟨mul_left_cancel₀ hc h.1, mul_left_cancel₀ hc h.2.1,
    mul_left_cancel₀ hc h.2.2.1, mul_left_cancel₀ hc h.2.2.2⟩

lemma diffCount_scaleVec {c : ℚ} (hc : c ≠ 0) (v1 v2 : Vec4) :
    diffCount (scaleVec c v1) (scaleVec c v2) = diffCount v1 v2 := by
  unfold diffCount
  refine List.countP_congr fun k _ => ?_
  simp only [coord_scaleVec, decide_eq_true_eq]
  exact not_congr (mul_right_inj' hc)

lemma getD_map_scaleVec (c : ℚ) (l : List Vec4) (i : Nat) :
    (l.map (scaleVec c)).getD i vzero = scaleVec c (l.getD i vzero) := by
  induction l generalizing i with
  | nil => simp [scaleVec, vzero]
  | cons a t ih =>
    cases i with
    | zero => rfl
    | succ n => simpa using ih n

lemma generateTesseractEdges_map_scaleVec {c : ℚ} (hc : c ≠ 0) (l : List Vec4) :
    generateTesseractEdges (l.map (scaleVec c)) = generateTesseractEdges l := by
  unfold generateTesseractEdges
  rw [List.length_map]
  simp only [getD_map_scaleVec, diffCount_scaleVec hc]

/-- Membership in the edge list forces the `i < j` and single-differing-
coordinate conditions of the `if` inside `generateTesseractEdges`. -/
lemma mem_generateTesseractEdges {vs : List Vec4} {p : Nat × Nat}
    (hp : p ∈ generateTesseractEdges vs) :
    p.1 < p.2 ∧ diffCount (vs.getD p.1 vzero) (vs.getD p.2 vzero) = 1 := by
  unfold generateTesseractEdges at hp
  simp only [List.mem_flatMap, List.mem_filterMap, List.mem_range] at hp
  obtain ⟨i, _, j, _, hcond⟩ := hp
  by_cases h : i < j ∧ diffCount (vs.getD i vzero) (vs.getD j vzero) = 1
  · rw [if_pos h] at hcond
    injection hcond with h2
    subst h2
    exact h
  · rw [if_neg h] at hcond
    exact absurd hcond (Option.noConfusion)

lemma generateTesseractEdges_base : generateTesseractEdges baseVerts = tesseractEdgeList := by
  decide

lemma generateTesseractEdges_of_ne_zero {size : ℚ} (hsize : size ≠ 0) :
    generateTesseractEdges (generateTesseractVertices size) = tesseractEdgeList := by
  have hc : (size / 2 : ℚ) ≠ 0 := div_ne_zero hsize two_ne_zero
  rw [generateTesseractVertices_eq_map size, generateTesseractEdges_map_scaleVec hc,
    generateTesseractEdges_base]

lemma coord_baseVerts : ∀ u ∈ baseVerts, ∀ k, coord u k = 1 ∨ coord u k = -1 := by
  decide

lemma generateTesseractVertices_two : generateTesseractVertices 2 = baseVerts := by
  rw [generateTesseractVertices_eq_map]
  norm_num [scaleVec, baseVerts]

/-- **C1.**  For the 16-element vertex list produced by
`generateTesseractVertices size` with `size > 0`, `generateTesseractEdges`
returns exactly 32 index pairs; every pair `(i, j)` satisfies `i < j`, the two
indexed vertices differ in exactly one coordinate, no pair is repeated, and the
pairs appear in the natural ascending iteration order of `(i, j)`. -/
theorem edges_spec_of_pos (size : ℚ) (hsize : 0 < size) :
    (generateTesseractEdges (generateTesseractVertices size)).length = 32 ∧
    (∀ p ∈ generateTesseractEdges (generateTesseractVertices size),
      p.1 < p.2 ∧
        diffCount ((generateTesseractVertices size).getD p.1 vzero)
          ((generateTesseractVertices size).getD p.2 vzero) = 1) ∧
    (generateTesseractEdges (generateTesseractVertices size)).Nodup ∧
    (generateTesseractEdges (generateTesseractVertices size)).Pairwise
      (fun p q => p.1 < q.1 ∨ (p.1 = q.1 ∧ p.2 < q.2)) := by
  have he := generateTesseractEdges_of_ne_zero (ne_of_gt hsize)
  refine ⟨by rw [he]; rfl, fun p hp => mem_generateTesseractEdges hp, ?_, ?_⟩
  · rw [he]; decide
  · rw [he]; decide

/-- Witness for `edges_spec_of_pos` at `size = 2`. -/
theorem edges_spec_of_pos_witness :
    (0 : ℚ) < 2 ∧
    ((generateTesseractEdges (generateTesseractVertices 2)).length = 32 ∧
     (∀ p ∈ generateTesseractEdges (generateTesseractVertices 2),
       p.1 < p.2 ∧
         diffCount ((generateTesseractVertices 2).getD p.1 vzero)
           ((generateTesseractVertices 2).getD p.2 vzero) = 1) ∧
     (generateTesseractEdges (generateTesseractVertices 2)).Nodup ∧
     (generateTesseractEdges (generateTesseractVertices 2)).Pairwise
       (fun p q => p.1 < q.1 ∨ (p.1 = q.1 ∧ p.2 < q.2))) :=
  ⟨by norm_num, edges_spec_of_pos 2 (by norm_num)⟩

/-- **C2.**  For every `size > 0`, `generateTesseractVertices size` returns
exactly 16 distinct `Vec4` values, every coordinate of every vector equals
`+size/2` or `-size/2`, and the vectors are emitted in the fixed nested
Cartesian-product order with `x` outermost and `w` innermost; for `size = 2`,
vertex 0 is `(-1,-1,-1,-1)` and vertex 15 is `(1,1,1,1)`. -/
theorem vertices_spec_of_pos (size : ℚ) (hsize : 0 < size) :
    (generateTesseractVertices size).length = 16 ∧
    (generateTesseractVertices size).Nodup ∧
    (∀ v ∈ generateTesseractVertices size, ∀ k,
      coord v k = size / 2 ∨ coord v k = -(size / 2)) ∧
    generateTesseractVertices size =
      [⟨-(size / 2), -(size / 2), -(size / 2), -(size / 2)⟩,
       ⟨-(size / 2), -(size / 2), -(size / 2), size / 2⟩,
       ⟨-(size / 2), -(size / 2), size / 2, -(size / 2)⟩,
       ⟨-(size / 2), -(size / 2), size / 2, size / 2⟩,
       ⟨-(size / 2), size / 2, -(size / 2), -(size / 2)⟩,
       ⟨-(size / 2), size / 2, -(size / 2), size / 2⟩,
       ⟨-(size / 2), size / 2, size / 2, -(size / 2)⟩,
       ⟨-(size / 2), size / 2, size / 2, size / 2⟩,
       ⟨size / 2, -(size / 2), -(size / 2), -(size / 2)⟩,
       ⟨size / 2, -(size / 2), -(size / 2), size / 2⟩,
       ⟨size / 2, -(size / 2), size / 2, -(size / 2)⟩,
       ⟨size / 2, -(size / 2), size / 2, size / 2⟩,
       ⟨size / 2, size / 2, -(size / 2), -(size / 2)⟩,
       ⟨size / 2, size / 2, -(size / 2), size / 2⟩,
       ⟨size / 2, size / 2, size / 2, -(size / 2)⟩,
       ⟨size / 2, size / 2, size / 2, size / 2⟩] ∧
    (generateTesseractVertices 2).getD 0 vzero = ⟨-1, -1, -1, -1⟩ ∧
    (generateTesseractVertices 2).getD 15 vzero = ⟨1, 1, 1, 1⟩ := by
  have hc : (size / 2 : ℚ) ≠ 0 := div_ne_zero (ne_of_gt hsize) two_ne_zero
  refine ⟨?_, ?_, ?_, ?_, ?_, ?_⟩
  · rw [generateTesseractVertices_eq_map]; simp [baseVerts]
  · rw [generateTesseractVertices_eq_map]
    exact List.Nodup.map (scaleVec_injective hc) (by decide)
  · rw [generateTesseractVertices_eq_map]
    intro v hv k
    obtain ⟨u, hu, rfl⟩ := List.mem_map.mp hv
    rw [coord_scaleVec]
    rcases coord_baseVerts u hu k with h | h <;> rw [h]
    · left; exact mul_one _
    · right; exact mul_neg_one _
  · norm_num [generateTesseractVertices]
  · rw [generateTesseractVertices_two]; decide
  · rw [generateTesseractVertices_two]; decide

/-- Witness for `vertices_spec_of_pos` at `size = 2`. -/
theorem vertices_spec_of_pos_witness :
    (0 : ℚ) < 2 ∧
    ((generateTesseractVertices 2).length = 16 ∧
     (generateTesseractVertices 2).Nodup ∧
     (∀ v ∈ generateTesseractVertices 2, ∀ k,
       coord v k = 2 / 2 ∨ coord v k = -(2 / 2)) ∧
     generateTesseractVertices 2 =
       [⟨-(2 / 2), -(2 / 2), -(2 / 2), -(2 / 2)⟩,
        ⟨-(2 / 2), -(2 / 2), -(2 / 2), 2 / 2⟩,
        ⟨-(2 / 2), -(2 / 2), 2 / 2, -(2 / 2)⟩,
        ⟨-(2 / 2), -(2 / 2), 2 / 2, 2 / 2⟩,
        ⟨-(2 / 2), 2 / 2, -(2 / 2), -(2 / 2)⟩,
        ⟨-(2 / 2), 2 / 2, -(2 / 2), 2 / 2⟩,
        ⟨-(2 / 2), 2 / 2, 2 / 2, -(2 / 2)⟩,
        ⟨-(2 / 2), 2 / 2, 2 / 2, 2 / 2⟩,
        ⟨2 / 2, -(2 / 2), -(2 / 2), -(2 / 2)⟩,
        ⟨2 / 2, -(2 / 2), -(2 / 2), 2 / 2⟩,
        ⟨2 / 2, -(2 / 2), 2 / 2, -(2 / 2)⟩,
        ⟨2 / 2, -(2 / 2), 2 / 2, 2 / 2⟩,
        ⟨2 / 2, 2 / 2, -(2 / 2), -(2 / 2)⟩,
        ⟨2 / 2, 2 / 2, -(2 / 2), 2 / 2⟩,
        ⟨2 / 2, 2 / 2, 2 / 2, -(2 / 2)⟩,
        ⟨2 / 2, 2 / 2, 2 / 2, 2 / 2⟩] ∧
     (generateTesseractVertices 2).getD 0 vzero = ⟨-1, -1, -1, -1⟩ ∧
     (generateTesseractVertices 2).getD 15 vzero = ⟨1, 1, 1, 1⟩) :=
  ⟨by norm_num, vertices_spec_of_pos 2 (by norm_num)⟩

/-- **C10.**  For `size = 0`, `generateTesseractVertices` returns 16 copies of
the origin (so the vectors are not distinct), and `generateTesseractEdges`
applied to that list returns no edges at all; the 32-edge cardinality holds
only away from `size = 0`. -/
theorem degenerate_size_zero :
    generateTesseractVertices 0 = List.replicate 16 vzero ∧
    ¬ (generateTesseractVertices 0).Nodup ∧
    generateTesseractEdges (generateTesseractVertices 0) = [] := by
  have h0 : generateTesseractVertices 0 = List.replicate 16 vzero := by
    rw [generateTesseractVertices_eq_map]
    norm_num [scaleVec, baseVerts, vzero, List.replicate]
  refine ⟨h0, ?_, ?_⟩
  · rw [h0]; decide
  · rw [h0]; decide

/-! ## Rotation engine (`Mat4` in `src/core/hyper.ts`)

A `Mat4` is a flat row-major array of 16 reals, `m[r*4 + c]`; it is embedded as
a function of the row and column index.  (`Real.cos`/`Real.sin` force this part
of the embedding to be noncomputable.) -/

noncomputable section

/-- A 4D vector with real coordinates, as consumed by the rotation engine. -/
abbrev Vec4R := Fin 4 → ℝ

/-- A 4×4 real matrix, entry `(r, c)` standing for the flat cell `m[r*4+c]`. -/
abbrev Mat4 := Fin 4 → Fin 4 → ℝ

/-- `mat4Identity` from `src/core/hyper.ts`. -/
def mat4Identity : Mat4 := fun r c => if r = c then 1 else 0

/-- `mat4Multiply` from `src/core/hyper.ts`: `out[r*4+c] = Σₖ a[r*4+k] * b[k*4+c]`. -/
def mat4Multiply (a b : Mat4) : Mat4 := fun r c => ∑ k, a r k * b k c

/-- `applyMat4ToVec4` from `src/core/hyper.ts`: `out[r] = Σₖ m[r*4+k] * v[k]`. -/
def applyMat4ToVec4 (m : Mat4) (v : Vec4R) : Vec4R := fun r => ∑ k, m r k * v k

/-- A single array-cell assignment `R[r0*4 + c0] = val`. -/
def matSet (m : Mat4) (r0 c0 : Fin 4) (val : ℝ) : Mat4 :=
  fun r c => if r = r0 ∧ c = c0 then val else m r c

/-- `rotationMatrix4` from `src/core/hyper.ts`: start from the identity and
assign the four cells `(i,i) := cos`, `(i,j) := -sin`, `(j,i) := sin`,
`(j,j) := cos`, in the source's assignment order (a later write to the same
cell wins, which matters only when `i = j`). -/
def rotationMatrix4 (i j : Fin 4) (angle : ℝ) : Mat4 :=
  matSet (matSet (matSet (matSet mat4Identity
    i i (Real.cos angle))
    i j (-Real.sin angle))
    j i (Real.sin angle))
    j j (Real.cos angle)

/-- For distinct axes, `rotationMatrix4` is the identity away from the
`(a, b)` block and the standard 2D rotation inside it. -/
lemma rotationMatrix4_apply {a b : Fin 4} (hab : a ≠ b) (θ : ℝ) (r c : Fin 4) :
    rotationMatrix4 a b θ r c =
      if r = a ∧ c = a then Real.cos θ
      else if r = a ∧ c = b then -Real.sin θ
      else if r = b ∧ c = a then Real.sin θ
      else if r = b ∧ c = b then Real.cos θ
      else if r = c then 1 else 0 := by
  unfold rotationMatrix4 matSet mat4Identity
  split_ifs <;> simp_all

/-- The standard basis vector `e c`. -/
def basisVec (c : Fin 4) : Vec4R := fun k => if k = c then 1 else 0

lemma applyMat4_basisVec (m : Mat4) (c r : Fin 4) :
    applyMat4ToVec4 m (basisVec c) r = m r c := by
  simp [applyMat4ToVec4, basisVec, mul_ite, mul_one, mul_zero, Finset.sum_ite_eq']

lemma mat4_ext_of_apply {A B : Mat4}
    (h : ∀ v, applyMat4ToVec4 A v = applyMat4ToVec4 B v) : A = B := by
  funext r c
  have hb := congrFun (h (basisVec c)) r
  rwa [applyMat4_basisVec, applyMat4_basisVec] at hb

lemma applyMat4_identity (v : Vec4R) : applyMat4ToVec4 mat4Identity v = v := by
  funext r
  simp [applyMat4ToVec4, mat4Identity, ite_mul, one_mul, zero_mul, Finset.sum_ite_eq]

lemma applyMat4_mat4Multiply (A B : Mat4) (v : Vec4R) :
    applyMat4ToVec4 (mat4Multiply A B) v = applyMat4ToVec4 A (applyMat4ToVec4 B v) := by
  funext r
  simp only [applyMat4ToVec4, mat4Multiply, Finset.sum_mul, Finset.mul_sum]
  rw [Finset.sum_comm]
  exact Finset.sum_congr rfl fun k _ => Finset.sum_congr rfl fun c _ => by ring

/-- Action of an elementary rotation: it replaces the `(a, b)` coordinate pair
by its 2D rotation and leaves the other two coordinates unchanged. -/
lemma applyMat4_rotation {a b : Fin 4} (hab : a ≠ b) (θ : ℝ) (v : Vec4R) :
    applyMat4ToVec4 (rotationMatrix4 a b θ) v =
      Function.update (Function.update v a (Real.cos θ * v a - Real.sin θ * v b))
        b (Real.sin θ * v a + Real.cos θ * v b) := by
  funext r
  have hsummand : ∀ k, rotationMatrix4 a b θ r k * v k =
      (if k = a then (if r = a then Real.cos θ else if r = b then Real.sin θ else 0) * v a
        else 0)
      + (if k = b then (if r = a then -Real.sin θ else if r = b then Real.cos θ else 0) * v b
        else 0)
      + (if r = k ∧ ¬r = a ∧ ¬r = b then v k else 0) := by
    intro k
    rw [rotationMatrix4_apply hab]
    by_cases hka : k = a <;> by_cases hkb : k = b <;>
      by_cases hra : r = a <;> by_cases hrb : r = b <;>
      simp_all <;>
      first
        | ring1
        | (intro h; simp_all)
  show (∑ k, rotationMatrix4 a b θ r k * v k) = _
  simp only [hsummand, Finset.sum_add_distrib, Finset.sum_ite_eq', Finset.mem_univ, if_true]
  by_cases hra : r = a
  · subst hra
    simp [Function.update_apply, hab, sub_eq_add_neg]
  · by_cases hrb : r = b
    · subst hrb
      simp [Function.update_apply, hra]
    · simp [Function.update_apply, hra, hrb, Finset.sum_ite_eq]

/-- The sum of squared coordinates (the square of the Euclidean norm). -/
def sumsq (v : Vec4R) : ℝ := ∑ i, v i ^ 2

/-- The Euclidean norm of a `Vec4R` (what `Math.hypot` computes in
`src/main.ts`). -/
def euclNorm4 (v : Vec4R) : ℝ := Real.sqrt (sumsq v)

lemma sumsq_update_update (v : Vec4R) {a b : Fin 4} (hab : a ≠ b) (X Y : ℝ) :
    sumsq (Function.update (Function.update v a X) b Y)
      = sumsq v - v a ^ 2 - v b ^ 2 + X ^ 2 + Y ^ 2 := by
  have hfun : (fun i => (Function.update (Function.update v a X) b Y i) ^ 2)
      = Function.update (Function.update (fun i => v i ^ 2) a (X ^ 2)) b (Y ^ 2) := by
    funext i
    simp only [Function.update_apply]
    split_ifs <;> rfl
  have hamem : a ∈ (Finset.univ : Finset (Fin 4)) \ {b} := by
    simp [hab]
  unfold sumsq
  rw [show (∑ i, (Function.update (Function.update v a X) b Y i) ^ 2)
        = ∑ i, Function.update (Function.update (fun i => v i ^ 2) a (X ^ 2)) b (Y ^ 2) i
      from Finset.sum_congr rfl fun i _ => congrFun hfun i]
  rw [Finset.sum_update_of_mem (Finset.mem_univ b), Finset.sum_update_of_mem hamem]
  rw [Finset.sum_eq_sum_diff_singleton_add (Finset.mem_univ b) fun i => v i ^ 2,
    Finset.sum_eq_sum_diff_singleton_add hamem fun i => v i ^ 2]
  ring

/-- An elementary rotation with distinct axes preserves the squared norm. -/
lemma sumsq_applyMat4_rotation {a b : Fin 4} (hab : a ≠ b) (θ : ℝ) (v : Vec4R) :
    sumsq (applyMat4ToVec4 (rotationMatrix4 a b θ) v) = sumsq v := by
  rw [applyMat4_rotation hab, sumsq_update_update v hab]
  linear_combination (v a ^ 2 + v b ^ 2) * Real.sin_sq_add_cos_sq θ

/-- The cumulative orientation built from a sequence of elementary rotations,
each left-multiplied onto the accumulated matrix exactly as `main.ts` does
(`rotationMat = mat4Multiply(combined, rotationMat)`), starting from
`mat4Identity`. -/
def composeRotations (l : List (Fin 4 × Fin 4 × ℝ)) : Mat4 :=
  l.foldl (fun acc p => mat4Multiply (rotationMatrix4 p.1 p.2.1 p.2.2) acc) mat4Identity

lemma sumsq_foldl_rotations (l : List (Fin 4 × Fin 4 × ℝ))
    (hl : ∀ p ∈ l, p.1 ≠ p.2.1) :
    ∀ acc : Mat4, (∀ u, sumsq (applyMat4ToVec4 acc u) = sumsq u) →
      ∀ v, sumsq (applyMat4ToVec4
        (l.foldl (fun acc p => mat4Multiply (rotationMatrix4 p.1 p.2.1 p.2.2) acc) acc) v)
          = sumsq v := by
  induction l with
  | nil => exact fun acc hacc v => hacc v
  | cons p t ih =>
    intro acc hacc v
    simp only [List.foldl_cons]
    refine ih (fun q hq => hl q (List.mem_cons_of_mem p hq)) _ (fun u => ?_) v
    rw [applyMat4_mat4Multiply,
      sumsq_applyMat4_rotation (hl p (List.mem_cons_self p t)), hacc]

lemma composeRotations_sumsq (l : List (Fin 4 × Fin 4 × ℝ))
    (hl : ∀ p ∈ l, p.1 ≠ p.2.1) (v : Vec4R) :
    sumsq (applyMat4ToVec4 (composeRotations l) v) = sumsq v :=
  sumsq_foldl_rotations l hl mat4Identity (fun u => by rw [applyMat4_identity]) v

/-- **C3.**  For every orientation matrix built by composing (via
`mat4Multiply`) a finite sequence of elementary rotations
`rotationMatrix4 a b θ` (with distinct plane axes, the engine's precondition)
starting from `mat4Identity`, and for every vector `v`,
`applyMat4ToVec4 orientation v` has the same Euclidean norm as `v`. -/
theorem composed_rotations_preserve_norm (l : List (Fin 4 × Fin 4 × ℝ))
    (hl : ∀ p ∈ l, p.1 ≠ p.2.1) (v : Vec4R) :
    euclNorm4 (applyMat4ToVec4 (composeRotations l) v) = euclNorm4 v := by
  unfold euclNorm4
  rw [composeRotations_sumsq l hl v]

/-- Witness for `composed_rotations_preserve_norm` on a two-rotation sequence
and the vector `(1, 2, 3, 4)`. -/
theorem composed_rotations_preserve_norm_witness :
    (∀ p ∈ [((0 : Fin 4), (1 : Fin 4), (1 : ℝ)), (2, 3, 5)], p.1 ≠ p.2.1) ∧
    euclNorm4 (applyMat4ToVec4
        (composeRotations [((0 : Fin 4), (1 : Fin 4), (1 : ℝ)), (2, 3, 5)])
        ![1, 2, 3, 4])
      = euclNorm4 ![1, 2, 3, 4] := by
  have h : ∀ p ∈ [((0 : Fin 4), (1 : Fin 4), (1 : ℝ)), (2, 3, 5)], p.1 ≠ p.2.1 := by
    intro p hp
    fin_cases hp <;> decide
  exact ⟨h, composed_rotations_preserve_norm _ h ![1, 2, 3, 4]⟩

/-- **C5.**  For distinct axes `a ≠ b` and every angle, `rotationMatrix4`
equals the identity except in the 2×2 block at rows/columns `(a, b)`, which
holds `cos` on the diagonal, `-sin` at `(a, b)` and `+sin` at `(b, a)`;
consequently applying `rotationMatrix4 0 1 (π/2)` to `(1,0,0,0)` yields
`(0,1,0,0)`. -/
theorem rotation_block_structure (a b : Fin 4) (hab : a ≠ b) (θ : ℝ) :
    (∀ r c, rotationMatrix4 a b θ r c =
      if r = a ∧ c = a then Real.cos θ
      else if r = a ∧ c = b then -Real.sin θ
      else if r = b ∧ c = a then Real.sin θ
      else if r = b ∧ c = b then Real.cos θ
      else if r = c then 1 else 0) ∧
    applyMat4ToVec4 (rotationMatrix4 0 1 (Real.pi / 2)) ![1, 0, 0, 0] = ![0, 1, 0, 0] := by
  refine ⟨fun r c => rotationMatrix4_apply hab θ r c, ?_⟩
  rw [applyMat4_rotation (show (0 : Fin 4) ≠ 1 by decide)]
  funext r
  fin_cases r <;>
    simp [Function.update_apply, Real.cos_pi_div_two, Real.sin_pi_div_two]

/-- Witness for `rotation_block_structure` at `a = 0`, `b = 1`, `θ = π/2`. -/
theorem rotation_block_structure_witness :
    ((0 : Fin 4) ≠ 1) ∧
    ((∀ r c, rotationMatrix4 0 1 (Real.pi / 2) r c =
      if r = 0 ∧ c = 0 then Real.cos (Real.pi / 2)
      else if r = 0 ∧ c = 1 then -Real.sin (Real.pi / 2)
      else if r = 1 ∧ c = 0 then Real.sin (Real.pi / 2)
      else if r = 1 ∧ c = 1 then Real.cos (Real.pi / 2)
      else if r = c then 1 else 0) ∧
    applyMat4ToVec4 (rotationMatrix4 0 1 (Real.pi / 2)) ![1, 0, 0, 0] = ![0, 1, 0, 0]) :=
  ⟨by decide, rotation_block_structure 0 1 (by decide) (Real.pi / 2)⟩

/-- **C7.**  For distinct axes and every angle `θ`, composing the elementary
rotation by `θ` with the one by `-θ` gives back the identity matrix, exactly,
over the reals. -/
theorem rotation_mul_rotation_neg (a b : Fin 4) (hab : a ≠ b) (θ : ℝ) :
    mat4Multiply (rotationMatrix4 a b θ) (rotationMatrix4 a b (-θ)) = mat4Identity := by
  have hba : ¬b = a := fun h => hab h.symm
  apply mat4_ext_of_apply
  intro v
  rw [applyMat4_mat4Multiply, applyMat4_rotation hab, applyMat4_rotation hab,
    applyMat4_identity]
  set u := Function.update
      (Function.update v a (Real.cos (-θ) * v a - Real.sin (-θ) * v b)) b
      (Real.sin (-θ) * v a + Real.cos (-θ) * v b) with hu
  have hua : u a = Real.cos (-θ) * v a - Real.sin (-θ) * v b := by
    rw [hu]
    simp [Function.update_apply, hab]
  have hub : u b = Real.sin (-θ) * v a + Real.cos (-θ) * v b := by
    rw [hu]
    simp
  funext r
  rw [Function.update_apply, Function.update_apply]
  by_cases hrb : r = b
  · rw [if_pos hrb, hua, hub, hrb, Real.cos_neg, Real.sin_neg]
    linear_combination v b * Real.sin_sq_add_cos_sq θ
  · rw [if_neg hrb]
    by_cases hra : r = a
    · rw [if_pos hra, hua, hub, hra, Real.cos_neg, Real.sin_neg]
      linear_combination v a * Real.sin_sq_add_cos_sq θ
    · rw [hu]
      simp [Function.update_apply, hra, hrb]

/-- Witness for `rotation_mul_rotation_neg` at `a = 0`, `b = 1`, `θ = 1`. -/
theorem rotation_mul_rotation_neg_witness :
    ((0 : Fin 4) ≠ 1) ∧
    mat4Multiply (rotationMatrix4 0 1 1) (rotationMatrix4 0 1 (-1)) = mat4Identity :=
  ⟨by decide, rotation_mul_rotation_neg 0 1 (by decide) 1⟩

/-- **C9, counterexample.**  `rotationMatrix4` does not fail fast on invalid
axis indices: called with equal axes `a = b = 0` (and angle `0`) it returns a
matrix — here even the identity matrix — instead of reporting a contract
error. -/
theorem rotation_equal_axes_returns_matrix :
    rotationMatrix4 0 0 0 = mat4Identity := by
  funext r c
  unfold rotationMatrix4 matSet mat4Identity
  split_ifs <;> simp_all [Real.cos_zero]

/-- **C9, amended.**  `rotationMatrix4` performs no validation of its axis
indices: for equal axes it silently returns the identity matrix with the
single cell `(a, a)` overwritten by `cos angle` (the last of the four
same-cell writes), rather than failing with a contract error. -/
theorem rotation_equal_axes_no_validation (a : Fin 4) (θ : ℝ) :
    rotationMatrix4 a a θ = matSet mat4Identity a a (Real.cos θ) := by
  funext r c
  unfold rotationMatrix4 matSet mat4Identity
  split_ifs <;> rfl

/-! ## Projector (`project4Dto3D` in `src/core/hyper.ts`) -/

/-- A 3D vector, the projector's output (`THREE.Vector3` holds three reals). -/
abbrev Vec3 := Fin 3 → ℝ

/-- `project4Dto3D` from `src/core/hyper.ts`: the parallel-shear projection.
The blend constant is the literal `const k = 0.7` in the function body. -/
def project4Dto3D (v cam : Vec4R) : Vec3 :=
  ![(v 0 - cam 0) + 0.7 * (v 3 - cam 3),
    (v 1 - cam 1) + 0.7 * (v 3 - cam 3),
    (v 2 - cam 2) + 0.7 * (v 3 - cam 3)]

/-- Modelled from the spec: the parallel-shear projection of §4.3 with the
blend constant `k` exposed as a configuration parameter ("a configuration
parameter, not hardcoded"), which the spec claims `project` receives. -/
def projectSpecParallel (k : ℝ) (v cam : Vec4R) : Vec3 :=
  ![(v 0 - cam 0) + k * (v 3 - cam 3),
    (v 1 - cam 1) + k * (v 3 - cam 3),
    (v 2 - cam 2) + k * (v 3 - cam 3)]

/-- **C4, counterexample.**  The blend constant is not a supplied
configuration parameter: at the concrete point `(0,0,0,1)` seen from the
origin, exactly one value of `k` — `0.7` — makes the spec's parametric formula
agree with `project4Dto3D`, so the code pins the constant rather than
receiving it. -/
theorem project_blend_constant_forced :
    {k : ℝ | projectSpecParallel k ![0, 0, 0, 1] ![0, 0, 0, 0]
        = project4Dto3D ![0, 0, 0, 1] ![0, 0, 0, 0]}
      = {(0.7 : ℝ)} := by
  ext k
  simp only [Set.mem_setOf_eq, Set.mem_singleton_iff]
  constructor
  · intro h
    have h0 := congrFun h 0
    simp [projectSpecParallel, project4Dto3D] at h0
    linarith
  · rintro rfl
    rfl

/-- **C4, amended.**  In parallel-shear mode, `project` returns
`(p.x−c.x)+k·(p.w−c.w)` on each of the first three axes — but with the blend
constant `k` hardcoded to `0.7` inside the function, not supplied as a
configuration parameter. -/
theorem project_parallel_shear (v cam : Vec4R) :
    project4Dto3D v cam = projectSpecParallel 0.7 v cam := rfl

/-- **C6, counterexample.**  `project4Dto3D` has no perspective mode and no
singularity guard: in the spec's own scenario (observer at the 4D origin,
point at `w = focalDistance − ε`, instantiated at `focalDistance = 1`,
`ε = 0`, i.e. exactly at the alleged singularity), the function does not
return the documented un-scaled `(x, y, z)` fallback; the shear formula is
applied unconditionally. -/
theorem project_no_perspective_fallback :
    project4Dto3D ![1, 0, 0, 1] ![0, 0, 0, 0] ≠ ![1, 0, 0] := by
  intro h
  have h0 := congrFun h 0
  simp [project4Dto3D] at h0
  norm_num at h0

/-- **C6, amended.**  `project` supports only the parallel-shear mapping: on
every input, each output component is unconditionally the division-free shear
expression, so no pinhole divide ever occurs, and no epsilon guard or fallback
exists in `project4Dto3D`. -/
theorem project_component_always_shear (v cam : Vec4R) (i : Fin 3) :
    project4Dto3D v cam i
      = (v i.castSucc - cam i.castSucc) + 0.7 * (v 3 - cam 3) := by
  fin_cases i <;> rfl

/-! ## Frame-integrator movement step (`animate` in `src/main.ts`) -/

/-- The WASD key state consumed by the movement step of `main.ts`. -/
structure KeyState where
  w : Bool
  a : Bool
  s : Bool
  d : Bool

/-- The combined 4D movement vector built by `animate` in `src/main.ts`: the
rotated basis vectors `bx = R·e₀` and `bz_forward = -(R·e₂)` accumulated per
active key, in the source's order (w, s, a, d). -/
def moveVec (keys : KeyState) (R : Mat4) : Vec4R :=
  let bx := applyMat4ToVec4 R ![1, 0, 0, 0]
  let bz_pos := applyMat4ToVec4 R ![0, 0, 1, 0]
  let bz_forward : Vec4R := fun i => -bz_pos i
  let mv0 : Vec4R := ![0, 0, 0, 0]
  let mv1 := if keys.w then (fun i => mv0 i + bz_forward i) else mv0
  let mv2 := if keys.s then (fun i => mv1 i - bz_forward i) else mv1
  let mv3 := if keys.a then (fun i => mv2 i - bx i) else mv2
  let mv4 := if keys.d then (fun i => mv3 i + bx i) else mv3
  mv4

/-- The per-frame observer update of `animate` in `src/main.ts`: normalize the
movement vector (`Math.hypot`, guarded by `len > 1e-6`) and advance the 4D
camera by `moveSpeed * dt / len` times the vector. -/
def stepCamera (cam : Vec4R) (keys : KeyState) (R : Mat4) (dt speed : ℝ) : Vec4R :=
  let mv := moveVec keys R
  let len := euclNorm4 mv
  if 1 / 1000000 < len then (fun i => cam i + mv i * (speed * dt / len)) else cam

lemma sumsq_mul_right (v : Vec4R) (c : ℝ) :
    sumsq (fun i => v i * c) = sumsq v * c ^ 2 := by
  simp [sumsq, mul_pow, ← Finset.sum_mul]

/-- With forward (`w`) and strafe-right (`d`) both held, the movement vector
is the rotated image of `(1, 0, -1, 0)`. -/
lemma moveVec_wd (R : Mat4) :
    moveVec ⟨true, false, false, true⟩ R = applyMat4ToVec4 R ![1, 0, -1, 0] := by
  funext i
  simp only [moveVec, if_true, if_false]
  fin_cases i <;> (simp [applyMat4ToVec4, Fin.sum_univ_four]; ring)

/-- **C8.**  In the per-frame movement step, when the two orthogonal movement
intents forward (`w`) and strafe (`d`) are active simultaneously for elapsed
time `dt` at speed `speed`, and the orientation matrix is a rotation (built
from elementary rotations with distinct axes), the combined movement vector is
normalized before scaling, so the observer's 4D position is displaced by
exactly `speed * dt` in Euclidean 4D distance — not `speed * dt * √2`. -/
theorem diagonal_move_displacement (l : List (Fin 4 × Fin 4 × ℝ))
    (hl : ∀ p ∈ l, p.1 ≠ p.2.1) (cam : Vec4R) (dt speed : ℝ)
    (hdt : 0 ≤ dt) (hspeed : 0 ≤ speed) :
    euclNorm4 (fun i =>
      stepCamera cam ⟨true, false, false, true⟩ (composeRotations l) dt speed i - cam i)
      = speed * dt := by
  have hsq : sumsq (moveVec ⟨true, false, false, true⟩ (composeRotations l)) = 2 := by
    rw [moveVec_wd, composeRotations_sumsq l hl]
    simp [sumsq, Fin.sum_univ_four]
    norm_num
  have hlen : euclNorm4 (moveVec ⟨true, false, false, true⟩ (composeRotations l))
      = Real.sqrt 2 := by
    unfold euclNorm4
    rw [hsq]
  have hsqrt2_pos : (0 : ℝ) < Real.sqrt 2 := Real.sqrt_pos.mpr (by norm_num)
  have hguard : (1 : ℝ) / 1000000 < euclNorm4 (moveVec ⟨true, false, false, true⟩
      (composeRotations l)) := by
    rw [hlen]
    have h1 : Real.sqrt 1 ≤ Real.sqrt 2 := Real.sqrt_le_sqrt (by norm_num)
    rw [Real.sqrt_one] at h1
    linarith
  unfold stepCamera
  rw [if_pos hguard]
  have hcancel : (fun i =>
      (cam i + moveVec ⟨true, false, false, true⟩ (composeRotations l) i *
        (speed * dt / euclNorm4 (moveVec ⟨true, false, false, true⟩ (composeRotations l))))
        - cam i)
      = fun i => moveVec ⟨true, false, false, true⟩ (composeRotations l) i *
          (speed * dt / Real.sqrt 2) := by
    funext i
    rw [hlen]
    ring
  rw [hcancel]
  unfold euclNorm4
  rw [sumsq_mul_right, hsq]
  rw [div_pow, Real.sq_sqrt (by norm_num : (0 : ℝ) ≤ 2)]
  rw [show (2 : ℝ) * ((speed * dt) ^ 2 / 2) = (speed * dt) ^ 2 by ring]
  exact Real.sqrt_sq (mul_nonneg hspeed hdt)

/-- Witness for `diagonal_move_displacement`: identity orientation (empty
rotation list), camera at the origin, `dt = 1`, `speed = 2`. -/
theorem diagonal_move_displacement_witness :
    (∀ p ∈ ([] : List (Fin 4 × Fin 4 × ℝ)), p.1 ≠ p.2.1) ∧ (0 : ℝ) ≤ 1 ∧ (0 : ℝ) ≤ 2 ∧
    euclNorm4 (fun i =>
      stepCamera ![0, 0, 0, 0] ⟨true, false, false, true⟩ (composeRotations []) 1 2 i
        - (![0, 0, 0, 0] : Vec4R) i)
      = 2 * 1 :=
  ⟨fun p hp => absurd hp (List.not_mem_nil p), by norm_num, by norm_num,
    diagonal_move_displacement [] (fun p hp => absurd hp (List.not_mem_nil p))
      ![0, 0, 0, 0] 1 2 (by norm_num) (by norm_num)⟩

end

end Tesseractia
